import Mathlib

/-!
Verification of the tokenization core in `networks/tokenizer_utils.py`
(ERNIE-Layout-Pytorch).

Texts are modelled as lists of Unicode codepoints (`List Nat`) or, for the
offset mapper, lists of `Char`.  External collaborators (the `unicodedata`
library, the pluggable sub-tokenizers, the `transformers` `Trie`, and the
`Vocab` class from the absent `.vocab` module) are modelled as parameters
or, where the spec pins their behaviour, as spec-modelled definitions.
-/

namespace TokUtils

/-- `is_chinese_char(cp)` from the source: membership in the eight fixed
CJK blocks. -/
def is_chinese_char (cp : Nat) : Bool :=
  (0x4E00 ≤ cp && cp ≤ 0x9FFF) ||
  (0x3400 ≤ cp && cp ≤ 0x4DBF) ||
  (0x20000 ≤ cp && cp ≤ 0x2A6DF) ||
  (0x2A700 ≤ cp && cp ≤ 0x2B73F) ||
  (0x2B740 ≤ cp && cp ≤ 0x2B81F) ||
  (0x2B820 ≤ cp && cp ≤ 0x2CEAF) ||
  (0xF900 ≤ cp && cp ≤ 0xFAFF) ||
  (0x2F800 ≤ cp && cp ≤ 0x2FA1F)

/-- The accumulator loop of `tokenize_chinese_chars`: `buff` collects the
current run of non-CJK characters; a CJK character flushes the buffer and
is emitted as its own fragment. -/
def tccGo (buff : List Nat) : List Nat → List (List Nat)
  | [] => if buff = [] then [] else [buff]
  | c :: cs =>
    if is_chinese_char c then
      (if buff = [] then [[c]] else [buff, [c]]) ++ tccGo [] cs
    else
      tccGo (buff ++ [c]) cs

/-- `tokenize_chinese_chars(text)` from the source. -/
def tokenize_chinese_chars (text : List Nat) : List (List Nat) :=
  tccGo [] text

/-- `_is_nonnormalized_char` from the source (fixed compatibility ranges). -/
def _is_nonnormalized_char (cp : Nat) : Bool :=
  (0xFF00 ≤ cp && cp ≤ 0xFFEF) ||
  (0xFE50 ≤ cp && cp ≤ 0xFE6B) ||
  (0x3358 ≤ cp && cp ≤ 0x33FF) ||
  (0x249C ≤ cp && cp ≤ 0x24E9) ||
  (0x3200 ≤ cp && cp ≤ 0x32FF)

/-- `_is_nonnormalized_numeric` from the source (fixed enclosed-number
ranges). -/
def _is_nonnormalized_numeric (cp : Nat) : Bool :=
  (0x2460 ≤ cp && cp ≤ 0x249B) ||
  (0x24EA ≤ cp && cp ≤ 0x24FF) ||
  (0x2776 ≤ cp && cp ≤ 0x2793) ||
  (0x2160 ≤ cp && cp ≤ 0x217F)

/-- Decimal digits (as codepoints) of a natural number, most significant
first; models Python `str(int(...))`. -/
def natDigits (n : Nat) : List Nat :=
  if h : n < 10 then [0x30 + n]
  else natDigits (n / 10) ++ [0x30 + n % 10]
  decreasing_by exact Nat.div_lt_self (by omega) (by omega)

/-- The per-character branch of the `normalize_chars` loop.  `nfkc` models
`unicodedata.normalize("NFKC", char)` and `numericv` models
`int(unicodedata.numeric(char))`; both are external Unicode tables. -/
def normalizeBranch (nfkc : Nat → List Nat) (numericv : Nat → Nat) (c : Nat) : List Nat :=
  if _is_nonnormalized_char c then nfkc c
  else if _is_nonnormalized_numeric c then [0x20] ++ natDigits (numericv c) ++ [0x20]
  else if c = 0xF979 then [0x51C9]
  else [c]

/-- The `output`-accumulating loop of `normalize_chars`. -/
def normalizeGo (nfkc : Nat → List Nat) (numericv : Nat → Nat)
    (output : List Nat) : List Nat → List Nat
  | [] => output
  | c :: cs => normalizeGo nfkc numericv (output ++ normalizeBranch nfkc numericv c) cs

/-- `normalize_chars(text)` from the source. -/
def normalize_chars (nfkc : Nat → List Nat) (numericv : Nat → Nat)
    (text : List Nat) : List Nat :=
  normalizeGo nfkc numericv [] text

/-- Spec-side description of `normalize` (§4.1 of the spec): character by
character, non-normalized forms are replaced by their NFKC expansion,
non-normalized numerics by space, decimal digits, space, the single
codepoint `0xF979` by `凉` (U+51C9), and everything else passes through. -/
def specNormalize (nfkc : Nat → List Nat) (numericv : Nat → Nat) : List Nat → List Nat
  | [] => []
  | c :: cs =>
    (if (0xFF00 ≤ c ∧ c ≤ 0xFFEF) ∨ (0xFE50 ≤ c ∧ c ≤ 0xFE6B) ∨
        (0x3358 ≤ c ∧ c ≤ 0x33FF) ∨ (0x249C ≤ c ∧ c ≤ 0x24E9) ∨
        (0x3200 ≤ c ∧ c ≤ 0x32FF) then nfkc c
     else if (0x2460 ≤ c ∧ c ≤ 0x249B) ∨ (0x24EA ≤ c ∧ c ≤ 0x24FF) ∨
        (0x2776 ≤ c ∧ c ≤ 0x2793) ∨ (0x2160 ≤ c ∧ c ≤ 0x217F) then
       [0x20] ++ natDigits (numericv c) ++ [0x20]
     else if c = 0xF979 then [0x51C9]
     else [c]) ++ specNormalize nfkc numericv cs

/-- Modelled from the spec: the `Vocab` class lives in the repository's
`.vocab` module, which is absent from the sources; §4.3 and §6 pin its
interface: a base `token→id` table plus an optional unknown-token
placeholder. -/
structure Vocab where
  toIdx : String → Option Nat
  unk : Option String

/-- Modelled from the spec: `Vocab.to_indices` — base lookup, else the id
of the unknown-token placeholder, else `None` when no unknown token is
configured. -/
def Vocab.to_indices (v : Vocab) (t : String) : Option Nat :=
  match v.toIdx t with
  | some i => some i
  | none => v.unk.bind v.toIdx

/-- A Python value passed in a `new_tokens` list: either a `str` or some
other object carrying its `str()` form (e.g. an `AddedToken`). -/
inductive PyObj where
  | pstr (s : String)
  | pother (s : String)
deriving DecidableEq, Repr

/-- Python `str(tok)`. -/
def pyStr : PyObj → String
  | .pstr s => s
  | .pother s => s

/-- Whether `isinstance(tok, str)` holds. -/
def PyObj.isStr : PyObj → Bool
  | .pstr _ => true
  | .pother _ => false

/-- Python `str.lower()`, modelled character-wise. -/
def strLower (s : String) : String := ⟨s.data.map Char.toLower⟩

/-- Lookup in a Python dict represented as an insertion-ordered
association list (later insertions win). -/
def dictGet (d : List (String × Nat)) (k : String) : Option Nat :=
  (d.reverse.find? (fun p => p.1 = k)).map (·.2)

/-- Tokenizer state: the fields of `PretrainedTokenizer` that the claims
touch.  The trie (an external `transformers` class) is modelled by the
set of words it contains, per §4.2 of the spec. -/
structure Tok where
  vocab : Vocab
  vocab_size : Nat
  unk_token : String
  do_lower_case : Bool
  added_tokens_encoder : List (String × Nat)
  added_tokens_decoder : List (Nat × String)
  unique_no_split_tokens : List String
  all_special_tokens : List String
  tokens_trie : List String

/-- `__len__`: base vocabulary size plus the overlay size. -/
def tokLen (st : Tok) : Nat :=
  st.vocab_size + st.added_tokens_encoder.length

/-- `_convert_token_to_id`: delegate to `Vocab.to_indices`. -/
def _convert_token_to_id (st : Tok) (token : String) : Option Nat :=
  st.vocab.to_indices token

/-- `_convert_token_to_id_with_added_voc`: overlay lookup first, else the
base vocabulary. -/
def _convert_token_to_id_with_added_voc (st : Tok) (token : String) : Option Nat :=
  match dictGet st.added_tokens_encoder token with
  | some i => some i
  | none => _convert_token_to_id st token

/-- Argument to `convert_tokens_to_ids`: `None`, a single string, or a
list of strings. -/
inductive TokArg where
  | null
  | one (s : String)
  | many (l : List String)

/-- Result of `convert_tokens_to_ids`. -/
inductive TokRes where
  | null
  | one (i : Option Nat)
  | many (l : List (Option Nat))
deriving DecidableEq

/-- `convert_tokens_to_ids` from the source: `None` passes through, a
single string resolves once, a list resolves element-wise. -/
def convert_tokens_to_ids (st : Tok) : TokArg → TokRes
  | .null => .null
  | .one s => .one (_convert_token_to_id_with_added_voc st s)
  | .many l => .many (l.map (_convert_token_to_id_with_added_voc st))

/-- `_insert_one_token_to_ordered_list`: bisect-insertion into a sorted
list, skipping an exact duplicate. -/
def _insert_one_token_to_ordered_list : List String → String → List String
  | [], t => [t]
  | x :: xs, t =>
    if t < x then t :: x :: xs
    else if t = x then x :: xs
    else x :: _insert_one_token_to_ordered_list xs t

/-- Insertion into a sorted list of strings (ascending). -/
def insSorted (t : String) : List String → List String
  | [] => [t]
  | x :: xs => if t < x then t :: x :: xs else x :: insSorted t xs

/-- First-occurrence deduplication, modelling Python `set(...)` content. -/
def dedupFO : List String → List String
  | [] => []
  | x :: xs => x :: dedupFO (xs.filter (fun y => y ≠ x))
  termination_by l => l.length
  decreasing_by simp only [List.length_cons]; exact Nat.lt_succ_of_le (List.length_filter_le _ _)

/-- Python `sorted(set(a) | set(b))`. -/
def sortedSetUnion (a b : List String) : List String :=
  (dedupFO (a ++ b)).foldr insSorted []

/-- `_create_trie` content: each no-split token is added to the trie,
lower-cased when the tokenizer lower-cases and the token is not special. -/
def createTrieList (doLower : Bool) (specials : List String)
    (uns : List String) : List String :=
  uns.map (fun t => if doLower && !(specials.contains t) then strLower t else t)

/-- The `tokens_to_add` loop of `_add_tokens`: raises `TypeError` on a
non-string element, optionally lower-cases, and keeps a token when it
differs from the unknown token, resolves to the unknown token's id, and
was not already collected. -/
def addLoop (st : Tok) (special : Bool) (acc : List String) :
    List PyObj → Except String (List String)
  | [] => .ok acc
  | tok :: toks =>
    if tok.isStr then
      let token := if !special && st.do_lower_case then strLower (pyStr tok) else pyStr tok
      if token ≠ st.unk_token ∧
          _convert_token_to_id_with_added_voc st token =
            _convert_token_to_id_with_added_voc st st.unk_token ∧
          token ∉ acc then
        addLoop st special (acc ++ [token]) toks
      else
        addLoop st special acc toks
    else
      .error ("Token " ++ pyStr tok ++ " is not a string.")

/-- `_add_tokens` from the source: stringify the inputs, collect
`tokens_to_add`, extend the overlay with sequential ids starting at
`len(self)`, update the no-split set, rebuild the trie, and return the
number of tokens actually added. -/
def _add_tokens (st : Tok) (new_tokens : List PyObj) (special_tokens : Bool) :
    Except String (Nat × Tok) :=
  let nt := new_tokens.map (fun t => PyObj.pstr (pyStr t))
  match addLoop st special_tokens [] nt with
  | .error e => .error e
  | .ok tokens_to_add =>
    let added_tok_encoder := tokens_to_add.enum.map (fun p => (p.2, tokLen st + p.1))
    let uns' :=
      if special_tokens then
        match nt with
        | [t] => _insert_one_token_to_ordered_list st.unique_no_split_tokens (pyStr t)
        | _ => sortedSetUnion st.unique_no_split_tokens (nt.map pyStr)
      else
        match tokens_to_add with
        | [t] => _insert_one_token_to_ordered_list st.unique_no_split_tokens t
        | _ => sortedSetUnion st.unique_no_split_tokens tokens_to_add
    .ok (tokens_to_add.length,
      { st with
        added_tokens_encoder := st.added_tokens_encoder ++ added_tok_encoder
        added_tokens_decoder :=
          st.added_tokens_decoder ++ added_tok_encoder.map (fun p => (p.2, p.1))
        unique_no_split_tokens := uns'
        tokens_trie := createTrieList st.do_lower_case st.all_special_tokens uns' })

/-- A call to `add_tokens`: the token list and the `special_tokens` flag. -/
def AddCall := List PyObj × Bool

/-- A sequence of `add_tokens` calls; an exception aborts the rest. -/
def runAddCalls (st : Tok) : List AddCall → Except String Tok
  | [] => .ok st
  | c :: cs =>
    match _add_tokens st c.1 c.2 with
    | .error e => .error e
    | .ok r => runAddCalls r.2 cs

/-- `max_len_for_pair` from `_batch_prepare_for_model`:
`max_length - len(first_ids) - (num_special_tokens_to_add(pair=True) if
add_special_tokens else 0)`; the overhead is supplied by an external
hook. -/
def maxLenForPair (max_length first_len overhead : Int) : Int :=
  max_length - first_len - overhead

/-- The sliding-window `while offset < len(second_ids)` loop of
`_batch_prepare_for_model`, with explicit fuel (the Python loop has no
built-in bound); each iteration emits the window `(offset, length)`,
breaks when the window reaches the end of `second_ids`, and otherwise
advances by `min(length, stride)`.  `none` means the fuel ran out before
the loop exited. -/
def slideLoop (stride mlp : Int) (second : List Int) :
    Nat → Int → Option (List (Int × Int))
  | 0, _ => none
  | fuel + 1, offset =>
    if offset < (second.length : Int) then
      let length := if (second.length : Int) - offset > mlp then mlp
                    else (second.length : Int) - offset
      if offset + length = (second.length : Int) then
        some [(offset, length)]
      else
        match slideLoop stride mlp second fuel (offset + min length stride) with
        | none => none
        | some ws => some ((offset, length) :: ws)
    else
      some []

/-- The sliding-window loop terminates: some finite fuel suffices. -/
def SlideTerminates (stride mlp : Int) (second : List Int) : Prop :=
  ∃ fuel ws, slideLoop stride mlp second fuel 0 = some ws

/-- Python slice `l[a:b]` for natural bounds. -/
def pySliceNat (l : List Int) (a b : Nat) : List Int :=
  (l.take b).drop a

/-- De-overlapped concatenation of the window slices of `second`: each
window `(o, l)` covers `second[o : o+l]`; the part overlapping the
previous window's end `pe` is dropped. -/
def deoverlapConcat (second : List Int) : Nat → List (Int × Int) → List Int
  | _, [] => []
  | pe, w :: ws =>
    pySliceNat second pe (w.1 + w.2).toNat ++ deoverlapConcat second (w.1 + w.2).toNat ws

/-- The medial-sigma substitution used by the offset-mapper search
(`.replace("ς", "σ")`, applied character-wise). -/
def sigmafy (c : Char) : Char := if c = 'ς' then 'σ' else c

/-- Python `"σ" in token or "ς" in token`. -/
def hasSigma (t : List Char) : Bool := t.contains 'σ' || t.contains 'ς'

/-- The per-token adjustment in `get_offset_mapping`: strip a leading
`##` continuation marker, then lower-case special tokens when the
tokenizer lower-cases. -/
def effTok (doLower : Bool) (specials : List (List Char)) (tok : List Char) : List Char :=
  let t1 := if tok.take 2 = ['#', '#'] then tok.drop 2 else tok
  if specials.contains t1 && doLower then t1.map Char.toLower else t1

/-- Python `hay.index(needle)` as an `Option`: the least index where
`needle` occurs. -/
def findSub (needle : List Char) : List Char → Option Nat
  | [] => if needle.isEmpty then some 0 else none
  | c :: rest =>
    if needle.isPrefixOf (c :: rest) then some 0
    else (findSub needle rest).map (· + 1)

/-- Locating one token in the normalized text at or after `offset`,
with the sigma forms searched interchangeably; returns the normalized
start and (exclusive) end position of the match. -/
def locate (doLower : Bool) (specials : List (List Char)) (normText : List Char)
    (tok : List Char) (offset : Nat) : Option (Nat × Nat) :=
  let t := effTok doLower specials tok
  let found :=
    if hasSigma t then findSub (t.map sigmafy) ((normText.drop offset).map sigmafy)
    else findSub t (normText.drop offset)
  found.map (fun r => (offset + r, offset + r + t.length))

/-- Python list indexing `l[i]` with negative-index wrap-around, as an
`Option`. -/
def pyListGet (l : List Nat) (i : Int) : Option Nat :=
  if 0 ≤ i then l[i.toNat]?
  else if (-i).toNat ≤ l.length then l[l.length - (-i).toNat]? else none

/-- The token walk of `get_offset_mapping`: for each split token, locate
it in the normalized text, read the original positions off
`char_mapping` at the match's first and last normalized characters, and
advance the search offset past the match.  `none` models the fatal
alignment error (`.index` raising) or an out-of-range mapping access. -/
def offsetLoop (doLower : Bool) (specials : List (List Char))
    (normText : List Char) (cm : List Nat) :
    List (List Char) → Nat → Option (List (Nat × Nat))
  | [], _ => some []
  | tok :: toks, offset =>
    match locate doLower specials normText tok offset with
    | none => none
    | some se =>
      match pyListGet cm se.1, pyListGet cm ((se.2 : Int) - 1) with
      | some s, some e1 =>
        match offsetLoop doLower specials normText cm toks se.2 with
        | none => none
        | some rest => some ((s, e1 + 1) :: rest)
      | _, _ => none

/-- The `normalized_text` / `char_mapping` construction of
`get_offset_mapping`: `normCh` models the per-character
lower-casing/NFD-stripping/control-dropping pipeline (all `unicodedata`
driven); every emitted normalized character records the index of the
original character that produced it. -/
def charMapBuild (normCh : Char → List Char) : List Char → Nat → List Char × List Nat
  | [], _ => ([], [])
  | c :: cs, i =>
    let r := charMapBuild normCh cs (i + 1)
    (normCh c ++ r.1, List.replicate (normCh c).length i ++ r.2)

/-- `get_offset_mapping` from the source, with the sub-tokenization stage
(`split_tokens`, produced by the external basic/wordpiece tokenizers)
supplied as input. -/
def get_offset_mapping (normCh : Char → List Char) (doLower : Bool)
    (specials : List (List Char)) (splitTokens : List (List Char))
    (text : List Char) : Option (List (Nat × Nat)) :=
  let p := charMapBuild normCh text 0
  offsetLoop doLower specials p.1 p.2 splitTokens 0

/-- A small concrete tokenizer vocabulary used to instantiate theorems. -/
def exVocab : Vocab :=
  ⟨fun t => if t = "[UNK]" then some 0 else if t = "the" then some 1 else none,
   some "[UNK]"⟩

/-- A small concrete tokenizer state used to instantiate theorems. -/
def exTok : Tok :=
  { vocab := exVocab
    vocab_size := 2
    unk_token := "[UNK]"
    do_lower_case := false
    added_tokens_encoder := []
    added_tokens_decoder := []
    unique_no_split_tokens := []
    all_special_tokens := ["[UNK]"]
    tokens_trie := [] }

/-- The state reached from `exTok` after `add_tokens(["foo"])`. -/
def exTokFoo : Tok :=
  { exTok with
    added_tokens_encoder := [("foo", 2)]
    added_tokens_decoder := [(2, "foo")]
    unique_no_split_tokens := ["foo"]
    tokens_trie := ["foo"] }


theorem pySliceNat_append (l : List Int) (a b c : Nat)
    (hab : a ≤ b) (hbc : b ≤ c) (hc : c ≤ l.length) :
    pySliceNat l a b ++ pySliceNat l b c = pySliceNat l a c := by
  unfold pySliceNat
  have h1 : l.take c = l.take b ++ (l.take c).drop b := by
    conv_lhs => rw [← List.take_append_drop b (l.take c)]
    rw [List.take_take, Nat.min_eq_left hbc]
  conv_rhs => rw [h1]
  rw [List.drop_append_of_le_length]
  rw [List.length_take]
  exact le_min hab (hab.trans (hbc.trans hc))

theorem pySliceNat_zero_len (l : List Int) : pySliceNat l 0 l.length = l := by
  simp [pySliceNat]

theorem slideLoop_spec (stride mlp : Int) (second : List Int)
    (hs : 1 ≤ stride) (hm : 1 ≤ mlp) :
    ∀ (fuel : Nat) (o : Int) (pe : Nat),
      (second.length : Int) - o ≤ fuel → 0 ≤ o → o < (second.length : Int) →
      (o ≤ (pe : Int)) → ((pe : Int) ≤ min (second.length : Int) (o + mlp)) →
      ∃ ws, slideLoop stride mlp second fuel o = some ws ∧ ws ≠ [] ∧
        (ws.head?.map Prod.fst = some o) ∧
        List.Chain' (fun a b => b.1 = a.1 + min a.2 stride) ws ∧
        (∃ w, ws.getLast? = some w ∧ w.1 + w.2 = (second.length : Int)) ∧
        deoverlapConcat second pe ws = pySliceNat second pe second.length := by
  intro fuel
  induction fuel with
  | zero =>
    intro o pe hfuel h0 hlt _ _
    exfalso
    simp only [Nat.cast_zero] at hfuel
    omega
  | succ fuel ih =>
    intro o pe hfuel h0 hlt hope hpe
    simp only [slideLoop]
    rw [if_pos hlt]
    have hlen_pos : 1 ≤ (if (second.length : Int) - o > mlp then mlp
        else (second.length : Int) - o) := by
      split <;> omega
    have hlen_min : o + (if (second.length : Int) - o > mlp then mlp
        else (second.length : Int) - o) =
        min (second.length : Int) (o + mlp) := by
      split <;> omega
    set length := if (second.length : Int) - o > mlp then mlp
      else (second.length : Int) - o with hlendef
    by_cases hend : o + length = (second.length : Int)
    · rw [if_pos hend]
      refine ⟨[(o, length)], rfl, by simp, by simp, List.chain'_singleton _,
        ⟨(o, length), by simp, hend⟩, ?_⟩
      simp only [deoverlapConcat]
      rw [hend, Int.toNat_natCast]
      simp
    · rw [if_neg hend]
      have hendlt : o + length < (second.length : Int) := by omega
      have hmin1 : 1 ≤ min length stride := le_min hlen_pos hs
      have hminle : min length stride ≤ length := min_le_left _ _
      have hnn : (0 : Int) ≤ o + length := by omega
      have h4 : o + min length stride ≤ (((o + length).toNat : Nat) : Int) := by
        rw [Int.toNat_of_nonneg hnn]
        omega
      have h5 : ((((o + length).toNat : Nat)) : Int) ≤
          min (second.length : Int) (o + min length stride + mlp) := by
        rw [Int.toNat_of_nonneg hnn]
        omega
      obtain ⟨ws, hws, hne, hhead, hchain, hlast, hconc⟩ :=
        ih (o + min length stride) ((o + length).toNat)
          (by omega) (by omega) (by omega) h4 h5
      rw [hws]
      refine ⟨(o, length) :: ws, rfl, by simp, by simp, ?_, ?_, ?_⟩
      · rw [List.chain'_cons']
        refine ⟨fun y hy => ?_, hchain⟩
        have : ws.head?.map Prod.fst = some (o + min length stride) := hhead
        cases hws2 : ws.head? with
        | none => rw [hws2] at hy; cases hy
        | some w =>
          rw [hws2] at hy this
          simp only [Option.map_some', Option.some.injEq] at this
          simp only [Option.mem_def, Option.some.injEq] at hy
          rw [← hy]
          exact this
      · obtain ⟨w, hw, hwe⟩ := hlast
        refine ⟨w, ?_, hwe⟩
        cases ws with
        | nil => exact absurd rfl hne
        | cons a l => rw [List.getLast?_cons_cons]; exact hw
      · simp only [deoverlapConcat]
        rw [hconc]
        exact pySliceNat_append second pe ((o + length).toNat) second.length
          (by omega) (by omega) (le_refl _)

/-- C1: with `stride > 0`, a positive `max_len_for_pair` and a non-empty
second sequence, the sliding-window loop succeeds and emits windows whose
first offset is 0, whose successive offsets advance by
`min(window_len, stride)`, whose final window ends exactly at
`len(second_ids)`, and whose slices, de-overlapped in order, concatenate
back to `second_ids` exactly. -/
theorem sliding_window_c1 (stride mlp : Int) (second : List Int)
    (hs : 0 < stride) (hm : 0 < mlp) (hn : second ≠ []) :
    ∃ ws, slideLoop stride mlp second (second.length + 1) 0 = some ws ∧
      ws ≠ [] ∧
      ws.head?.map Prod.fst = some 0 ∧
      List.Chain' (fun a b => b.1 = a.1 + min a.2 stride) ws ∧
      (∃ w, ws.getLast? = some w ∧ w.1 + w.2 = (second.length : Int)) ∧
      deoverlapConcat second 0 ws = second := by
  have hlen : 0 < second.length := List.length_pos.mpr hn
  obtain ⟨ws, h1, h2, h3, h4, h5, h6⟩ :=
    slideLoop_spec stride mlp second hs hm (second.length + 1) 0 0
      (by push_cast; omega) le_rfl (by exact_mod_cast hlen) (by simp)
      (by simp only [Nat.cast_zero]; omega)
  refine ⟨ws, h1, h2, h3, h4, h5, ?_⟩
  rw [h6, pySliceNat_zero_len]

/-- Witness for C1 at the spec's example shape: `stride = 2`,
`max_len_for_pair = 4` and a 10-element second sequence. -/
theorem sliding_window_c1_witness :
    ((0 : Int) < 2 ∧ (0 : Int) < 4 ∧
      ([1, 2, 3, 4, 5, 6, 7, 8, 9, 10] : List Int) ≠ []) ∧
    (∃ ws, slideLoop 2 4 [1, 2, 3, 4, 5, 6, 7, 8, 9, 10]
        (([1, 2, 3, 4, 5, 6, 7, 8, 9, 10] : List Int).length + 1) 0 = some ws ∧
      ws ≠ [] ∧
      ws.head?.map Prod.fst = some 0 ∧
      List.Chain' (fun a b => b.1 = a.1 + min a.2 2) ws ∧
      (∃ w, ws.getLast? = some w ∧
        w.1 + w.2 = (([1, 2, 3, 4, 5, 6, 7, 8, 9, 10] : List Int).length : Int)) ∧
      deoverlapConcat [1, 2, 3, 4, 5, 6, 7, 8, 9, 10] 0 ws =
        [1, 2, 3, 4, 5, 6, 7, 8, 9, 10]) :=
  ⟨⟨by decide, by decide, by decide⟩,
   sliding_window_c1 2 4 [1, 2, 3, 4, 5, 6, 7, 8, 9, 10]
     (by decide) (by decide) (by decide)⟩

theorem slideLoop_stuck (second : List Int) (stride mlp : Int)
    (hm : mlp < 0) (hl : 0 < second.length) :
    ∀ (fuel : Nat) (o : Int), o ≤ 0 → slideLoop stride mlp second fuel o = none := by
  intro fuel
  induction fuel with
  | zero => intro o _; rfl
  | succ fuel ih =>
    intro o ho
    have hL : (0 : Int) < (second.length : Int) := by exact_mod_cast hl
    simp only [slideLoop]
    rw [if_pos (by omega : o < (second.length : Int))]
    rw [if_pos (by omega : (second.length : Int) - o > mlp)]
    rw [if_neg (by omega : ¬ (o + mlp = (second.length : Int)))]
    rw [ih (o + min mlp stride) (by have := min_le_left mlp stride; omega)]

/-- C4 (counterexample): with `max_length = 1`, two `first_ids` and no
special-token overhead, `max_len_for_pair = -1` and the sliding-window
loop over a 10-element second sequence never terminates: no fuel
completes it, refuting termination "for every max_length". -/
theorem slide_nontermination_counterexample :
    ¬ SlideTerminates 2 (maxLenForPair 1 2 0) (List.replicate 10 1) := by
  rintro ⟨fuel, ws, h⟩
  have hmlp : maxLenForPair 1 2 0 = -1 := by decide
  rw [hmlp] at h
  rw [slideLoop_stuck (List.replicate 10 1) 2 (-1) (by decide) (by simp)
    fuel 0 le_rfl] at h
  cases h

/-- C4 (amended): the per-example sliding-window loop terminates for
every `stride > 0` and every second sequence provided
`max_len_for_pair` is positive (for `max_len_for_pair ≤ 0` the loop
never makes progress). -/
theorem slide_loop_terminates (stride mlp : Int) (second : List Int)
    (hs : 0 < stride) (hm : 0 < mlp) : SlideTerminates stride mlp second := by
  rcases Nat.eq_zero_or_pos second.length with h | h
  · refine ⟨1, [], ?_⟩
    simp only [slideLoop]
    rw [if_neg]
    rw [h]
    simp
  · obtain ⟨ws, hws, -⟩ :=
      slideLoop_spec stride mlp second hs hm (second.length + 1) 0 0
        (by push_cast; omega) le_rfl (by exact_mod_cast h) (by simp)
        (by simp only [Nat.cast_zero]; omega)
    exact ⟨second.length + 1, ws, hws⟩

/-- Witness for the amended C4 at concrete parameters. -/
theorem slide_loop_terminates_witness :
    ((0 : Int) < 2 ∧ (0 : Int) < 4) ∧
    SlideTerminates 2 4 [1, 2, 3, 4, 5, 6, 7, 8, 9, 10] :=
  ⟨⟨by decide, by decide⟩,
   slide_loop_terminates 2 4 [1, 2, 3, 4, 5, 6, 7, 8, 9, 10]
     (by decide) (by decide)⟩

end TokUtils

namespace TokUtils

/-- C7: `is_chinese_char(cp)` is true iff `cp` lies in one of the eight
fixed CJK blocks, and the block boundaries behave exactly as stated:
`0x4E00 ↦ true`, `0x4DFF ↦ false`, `0x9FFF ↦ true`, `0xA000 ↦ false`. -/
theorem is_chinese_char_c7 :
    (∀ cp : Nat, is_chinese_char cp = true ↔
      ((0x4E00 ≤ cp ∧ cp ≤ 0x9FFF) ∨ (0x3400 ≤ cp ∧ cp ≤ 0x4DBF) ∨
       (0x20000 ≤ cp ∧ cp ≤ 0x2A6DF) ∨ (0x2A700 ≤ cp ∧ cp ≤ 0x2B73F) ∨
       (0x2B740 ≤ cp ∧ cp ≤ 0x2B81F) ∨ (0x2B820 ≤ cp ∧ cp ≤ 0x2CEAF) ∨
       (0xF900 ≤ cp ∧ cp ≤ 0xFAFF) ∨ (0x2F800 ≤ cp ∧ cp ≤ 0x2FA1F))) ∧
    is_chinese_char 0x4E00 = true ∧ is_chinese_char 0x4DFF = false ∧
    is_chinese_char 0x9FFF = true ∧ is_chinese_char 0xA000 = false := by
  refine ⟨fun cp => ?_, by decide, by decide, by decide, by decide⟩
  simp only [is_chinese_char, Bool.or_eq_true, Bool.and_eq_true, decide_eq_true_eq]
  omega

theorem normalizeGo_append (nfkc : Nat → List Nat) (nv : Nat → Nat) :
    ∀ (t : List Nat) (out : List Nat),
      normalizeGo nfkc nv out t = out ++ normalizeGo nfkc nv [] t := by
  intro t
  induction t with
  | nil => intro out; simp [normalizeGo]
  | cons c cs ih =>
    intro out
    simp only [normalizeGo]
    rw [ih (out ++ normalizeBranch nfkc nv c), ih ([] ++ normalizeBranch nfkc nv c)]
    simp [List.append_assoc]

/-- C9: `normalize_chars` processes the text character by character;
non-normalized forms go to their NFKC expansion, non-normalized numerics
to space, decimal digits, space, `0xF979` to the literal `凉` (U+51C9),
and everything else is unchanged. -/
theorem normalize_chars_c9 (nfkc : Nat → List Nat) (nv : Nat → Nat) (t : List Nat) :
    normalize_chars nfkc nv t = specNormalize nfkc nv t := by
  induction t with
  | nil => rfl
  | cons c cs ih =>
    show normalizeGo nfkc nv ([] ++ normalizeBranch nfkc nv c) cs = _
    rw [normalizeGo_append, specNormalize]
    have hc : normalize_chars nfkc nv cs = specNormalize nfkc nv cs := ih
    rw [show normalizeGo nfkc nv [] cs = normalize_chars nfkc nv cs from rfl, hc]
    congr 1
    simp only [List.nil_append, normalizeBranch, _is_nonnormalized_char,
      _is_nonnormalized_numeric]
    split_ifs with h1 h2 h3 h4 h5 h6 h7 h8 <;> first
      | rfl
      | (exfalso; revert h1; simp_all [Bool.or_eq_true, Bool.and_eq_true, decide_eq_true_eq]
         <;> omega)

/-- C10: `convert_tokens_to_ids` maps `None` to `None` (it does not
raise), a single string to a single id, and a list of strings to a list
of ids of the same length, the overlay lookup taking precedence over the
base vocabulary for each element. -/
theorem convert_tokens_to_ids_c10 (st : Tok) :
    convert_tokens_to_ids st .null = .null ∧
    (∀ s, convert_tokens_to_ids st (.one s) =
      .one (_convert_token_to_id_with_added_voc st s)) ∧
    (∀ l, ∃ ids, convert_tokens_to_ids st (.many l) = .many ids ∧
      ids.length = l.length ∧
      ∀ k, k < l.length →
        ids[k]? = (l[k]?).map (_convert_token_to_id_with_added_voc st)) ∧
    (∀ t i, dictGet st.added_tokens_encoder t = some i →
      _convert_token_to_id_with_added_voc st t = some i) := by
  refine ⟨rfl, fun s => rfl, fun l => ⟨l.map (_convert_token_to_id_with_added_voc st),
    rfl, l.length_map _, fun k hk => ?_⟩, fun t i h => ?_⟩
  · simp [List.getElem?_map]
  · simp [_convert_token_to_id_with_added_voc, h]

theorem tccGo_flatten : ∀ (t buff : List Nat), (tccGo buff t).flatten = buff ++ t := by
  intro t
  induction t with
  | nil =>
    intro buff
    by_cases h : buff = [] <;> simp [tccGo, h]
  | cons c cs ih =>
    intro buff
    by_cases hc : is_chinese_char c
    · by_cases hb : buff = [] <;> simp [tccGo, hc, hb, ih]
    · simp only [tccGo, hc, Bool.false_eq_true, if_false]
      rw [ih (buff ++ [c])]
      simp

theorem tccGo_frags :
    ∀ (t buff : List Nat), (∀ c ∈ buff, is_chinese_char c = false) →
      ∀ f ∈ tccGo buff t,
        (∃ c, f = [c] ∧ is_chinese_char c = true) ∨
        (f ≠ [] ∧ ∀ c ∈ f, is_chinese_char c = false) := by
  intro t
  induction t with
  | nil =>
    intro buff hb f hf
    by_cases h : buff = []
    · simp [tccGo, h] at hf
    · simp only [tccGo, h, if_false, List.mem_singleton] at hf
      subst hf
      exact Or.inr ⟨h, hb⟩
  | cons c cs ih =>
    intro buff hb f hf
    by_cases hc : is_chinese_char c
    · simp only [tccGo, hc, if_true] at hf
      by_cases hbe : buff = [] <;> simp only [hbe, if_true, if_false] at hf
      · rcases List.mem_append.mp hf with h | h
        · simp only [List.mem_singleton] at h
          exact Or.inl ⟨c, h, hc⟩
        · exact ih [] (by simp) f h
      · rcases List.mem_append.mp hf with h | h
        · simp only [List.mem_cons, List.mem_singleton, List.not_mem_nil,
            or_false] at h
          rcases h with h | h
          · subst h
            exact Or.inr ⟨hbe, hb⟩
          · exact Or.inl ⟨c, h, hc⟩
        · exact ih [] (by simp) f h
    · simp only [tccGo, hc, Bool.false_eq_true, if_false] at hf
      refine ih (buff ++ [c]) ?_ f hf
      intro x hx
      rcases List.mem_append.mp hx with h | h
      · exact hb x h
      · simp only [List.mem_singleton] at h
        simpa [h] using hc

theorem tccGo_chain :
    ∀ (t buff : List Nat), (∀ c ∈ buff, is_chinese_char c = false) →
      List.Chain' (fun a b => (∃ c, a = [c] ∧ is_chinese_char c = true) ∨
        (∃ c, b = [c] ∧ is_chinese_char c = true)) (tccGo buff t) ∧
      (∀ f, (tccGo buff t).head? = some f → buff ≠ [] →
        ¬ ∃ c, f = [c] ∧ is_chinese_char c = true) := by
  intro t
  induction t with
  | nil =>
    intro buff hb
    by_cases h : buff = []
    · simp [tccGo, h]
    · refine ⟨by simp [tccGo, h], ?_⟩
      intro f hf _
      rintro ⟨c, hc, hcjk⟩
      have hbf : buff = f := by
        simpa [tccGo, h] using hf
      have : is_chinese_char c = false := hb c (by rw [hbf, hc]; simp)
      simp [this] at hcjk
  | cons c cs ih =>
    intro buff hb
    by_cases hc : is_chinese_char c
    · have hrest := ih [] (by simp)
      by_cases hbe : buff = []
      · simp only [tccGo, hc, if_true, hbe, if_true]
        constructor
        · rw [List.chain'_append]
          refine ⟨by simp, hrest.1, ?_⟩
          intro x hx y _
          have hx2 : x = [c] := by
            have := hx
            simp only [List.getLast?_singleton, Option.mem_def,
              Option.some.injEq] at this
            exact this.symm
          exact Or.inl ⟨c, hx2, hc⟩
        · intro f hf hne
          simp at hne
      · simp only [tccGo, hc, if_true, hbe, if_false]
        constructor
        · rw [List.chain'_append]
          refine ⟨?_, hrest.1, ?_⟩
          · exact List.chain'_pair.mpr (Or.inr ⟨c, rfl, hc⟩)
          · intro x hx y _
            have hx2 : x = [c] := by
              have := hx
              simp only [List.getLast?_cons_cons, List.getLast?_singleton,
                Option.mem_def, Option.some.injEq] at this
              exact this.symm
            exact Or.inl ⟨c, hx2, hc⟩
        · intro f hf _
          rintro ⟨d, hd, hcjk⟩
          have hbf : buff = f := by
            simpa using hf
          have : is_chinese_char d = false := hb d (by rw [hbf, hd]; simp)
          simp [this] at hcjk
    · simp only [tccGo, hc, Bool.false_eq_true, if_false]
      have hb' : ∀ x ∈ buff ++ [c], is_chinese_char x = false := by
        intro x hx
        rcases List.mem_append.mp hx with h | h
        · exact hb x h
        · simp only [List.mem_singleton] at h
          simpa [h] using hc
      have := ih (buff ++ [c]) hb'
      exact ⟨this.1, fun f hf _ => this.2 f hf (by simp)⟩

/-- C8: `tokenize_chinese_chars` splits the text into fragments in which
every CJK character stands alone, maximal non-CJK runs are single merged
fragments (no two adjacent fragments are both non-CJK runs), and the
concatenation of the fragments reproduces the input exactly. -/
theorem tokenize_chinese_chars_c8 (t : List Nat) :
    (tokenize_chinese_chars t).flatten = t ∧
    (∀ f ∈ tokenize_chinese_chars t,
      (∃ c, f = [c] ∧ is_chinese_char c = true) ∨
      (f ≠ [] ∧ ∀ c ∈ f, is_chinese_char c = false)) ∧
    List.Chain' (fun a b => (∃ c, a = [c] ∧ is_chinese_char c = true) ∨
      (∃ c, b = [c] ∧ is_chinese_char c = true)) (tokenize_chinese_chars t) := by
  refine ⟨?_, ?_, ?_⟩
  · simpa using tccGo_flatten t []
  · exact tccGo_frags t [] (by simp)
  · exact (tccGo_chain t [] (by simp)).1

theorem addLoop_all_str (st : Tok) (special : Bool) :
    ∀ (l : List PyObj) (acc : List String), (∀ x ∈ l, x.isStr = true) →
      ∃ r, addLoop st special acc l = .ok r := by
  intro l
  induction l with
  | nil => intro acc _; exact ⟨acc, rfl⟩
  | cons tok toks ih =>
    intro acc hall
    have htok : tok.isStr = true := hall tok (by simp)
    have hrec : ∀ acc2, ∃ r, addLoop st special acc2 toks = .ok r :=
      fun acc2 => ih acc2 (fun x hx => hall x (by simp [hx]))
    simp only [addLoop, htok, if_true]
    split <;> (split <;> exact hrec _)

/-- C6 (counterexample): a `new_tokens` list containing a non-string
element does not reach the `TypeError` branch — the call succeeds,
because every element is passed through `str()` before the type check. -/
theorem add_tokens_nonstring_no_typeerror :
    (PyObj.pother "5").isStr = false ∧
    (_add_tokens exTok [PyObj.pother "5"] false).isOk = true := by
  constructor
  · rfl
  · rfl

/-- C6 (amended): the entry conversion `new_tokens = [str(tok) for tok in
new_tokens]` makes every element a string before the `isinstance` check,
so `_add_tokens` never raises the `TypeError`: it succeeds on every
input list, stringifying non-string elements. -/
theorem add_tokens_never_typeerror (st : Tok) (new_tokens : List PyObj)
    (special : Bool) :
    ∃ n st', _add_tokens st new_tokens special = .ok (n, st') := by
  have hall : ∀ x ∈ new_tokens.map (fun t => PyObj.pstr (pyStr t)), x.isStr = true := by
    intro x hx
    rcases List.mem_map.mp hx with ⟨y, _, hy⟩
    simp [← hy, PyObj.isStr]
  obtain ⟨r, hr⟩ := addLoop_all_str st special _ [] hall
  simp only [_add_tokens, hr]
  exact ⟨_, _, rfl⟩

theorem add_tokens_trie_eq (st : Tok) (toks : List PyObj) (special : Bool)
    (r : Nat × Tok) (h : _add_tokens st toks special = .ok r) :
    r.2.tokens_trie = createTrieList r.2.do_lower_case r.2.all_special_tokens
      r.2.unique_no_split_tokens := by
  simp only [_add_tokens] at h
  cases hal : addLoop st special [] (toks.map fun t => PyObj.pstr (pyStr t)) with
  | error e => rw [hal] at h; cases h
  | ok l =>
    rw [hal] at h
    simp only [Except.ok.injEq] at h
    subst h
    rfl

/-- C3: after every (sequence of) `_add_tokens` call(s), the tokens trie
equals the trie rebuilt from `unique_no_split_tokens`, so the trie's
content and the no-split set are in sync: a word is in the trie iff it is
the (configured lower-casing of a) member of the set. -/
theorem run_add_calls_trie_sync (st : Tok) (calls : List AddCall) (st' : Tok)
    (hne : calls ≠ []) (h : runAddCalls st calls = .ok st') :
    st'.tokens_trie = createTrieList st'.do_lower_case st'.all_special_tokens
      st'.unique_no_split_tokens ∧
    ∀ w, w ∈ st'.tokens_trie ↔ ∃ t ∈ st'.unique_no_split_tokens,
      (if st'.do_lower_case && !(st'.all_special_tokens.contains t)
       then strLower t else t) = w := by
  have heq : st'.tokens_trie = createTrieList st'.do_lower_case
      st'.all_special_tokens st'.unique_no_split_tokens := by
    induction calls generalizing st with
    | nil => exact absurd rfl hne
    | cons c cs ih =>
      simp only [runAddCalls] at h
      cases ha : _add_tokens st c.1 c.2 with
      | error e => rw [ha] at h; cases h
      | ok r =>
        rw [ha] at h
        cases cs with
        | nil =>
          simp only [runAddCalls, Except.ok.injEq] at h
          subst h
          exact add_tokens_trie_eq st c.1 c.2 r ha
        | cons c2 cs2 => exact ih r.2 (by simp) h
  refine ⟨heq, fun w => ?_⟩
  rw [heq]
  simp [createTrieList, List.mem_map]

/-- Witness for C3 at a concrete state and call sequence. -/
theorem run_add_calls_trie_sync_witness :
    ([([PyObj.pstr "foo"], false)] : List AddCall) ≠ [] ∧
    (exTokFoo.tokens_trie = createTrieList exTokFoo.do_lower_case
      exTokFoo.all_special_tokens exTokFoo.unique_no_split_tokens ∧
    ∀ w, w ∈ exTokFoo.tokens_trie ↔ ∃ t ∈ exTokFoo.unique_no_split_tokens,
      (if exTokFoo.do_lower_case && !(exTokFoo.all_special_tokens.contains t)
       then strLower t else t) = w) :=
  ⟨by simp,
   run_add_calls_trie_sync exTok [([PyObj.pstr "foo"], false)] exTokFoo
     (by simp) rfl⟩

theorem pyStr_pstr (s : String) : pyStr (PyObj.pstr s) = s := rfl

theorem dictGet_append_last (d : List (String × Nat)) (k : String) (v : Nat) :
    dictGet (d ++ [(k, v)]) k = some v := by
  simp [dictGet, List.reverse_append, List.find?_cons]

theorem dictGet_append_ne (d : List (String × Nat)) (k k2 : String) (v : Nat)
    (h : k ≠ k2) : dictGet (d ++ [(k2, v)]) k = dictGet d k := by
  simp [dictGet, List.reverse_append, List.find?_cons, Ne.symm h]

theorem addLoop_spec (st : Tok) (special : Bool) :
    ∀ (l : List String) (acc : List String), acc.Nodup →
      ∃ r, addLoop st special acc (l.map PyObj.pstr) = .ok r ∧ r.Nodup ∧
        ∀ t, t ∈ r ↔ (t ∈ acc ∨
          (t ∈ l.map (fun s => if !special && st.do_lower_case then strLower s else s) ∧
           t ≠ st.unk_token ∧
           _convert_token_to_id_with_added_voc st t =
             _convert_token_to_id_with_added_voc st st.unk_token)) := by
  intro l
  induction l with
  | nil =>
    intro acc hacc
    exact ⟨acc, rfl, hacc, by simp⟩
  | cons s l ih =>
    intro acc hacc
    simp only [List.map_cons, addLoop, PyObj.isStr, if_true, pyStr_pstr]
    set tk := if !special && st.do_lower_case then strLower s else s with htk
    by_cases hcond : tk ≠ st.unk_token ∧
        _convert_token_to_id_with_added_voc st tk =
          _convert_token_to_id_with_added_voc st st.unk_token ∧
        tk ∉ acc
    · rw [if_pos hcond]
      obtain ⟨r, hr, hnd, hmem⟩ :=
        ih (acc ++ [tk])
          (by
            rw [List.nodup_append]
            exact ⟨hacc, List.nodup_singleton _,
              fun x hx hxtk => hcond.2.2 (by rwa [List.mem_singleton.mp hxtk] at hx)⟩)
      refine ⟨r, hr, hnd, fun t => ?_⟩
      rw [hmem t]
      simp only [List.mem_append, List.mem_cons, List.mem_singleton,
        List.not_mem_nil, or_false]
      constructor
      · rintro ((h | h) | ⟨hm, hp⟩)
        · exact Or.inl h
        · subst h
          exact Or.inr ⟨Or.inl rfl, hcond.1, hcond.2.1⟩
        · exact Or.inr ⟨Or.inr hm, hp⟩
      · rintro (h | ⟨(h | hm), hp⟩)
        · exact Or.inl (Or.inl h)
        · subst h
          exact Or.inl (Or.inr rfl)
        · exact Or.inr ⟨hm, hp⟩
    · rw [if_neg hcond]
      obtain ⟨r, hr, hnd, hmem⟩ := ih acc hacc
      refine ⟨r, hr, hnd, fun t => ?_⟩
      rw [hmem t]
      push_neg at hcond
      simp only [List.mem_cons]
      constructor
      · rintro (h | ⟨hm, hp⟩)
        · exact Or.inl h
        · exact Or.inr ⟨Or.inr hm, hp⟩
      · rintro (h | ⟨(h | hm), hp⟩)
        · exact Or.inl h
        · subst h
          exact Or.inl (hcond hp.1 hp.2)
        · exact Or.inr ⟨hm, hp⟩

theorem _add_tokens_ok_fields (st : Tok) (toks : List PyObj) (special : Bool)
    (r : List String)
    (hr : addLoop st special [] (toks.map fun t => PyObj.pstr (pyStr t)) = .ok r) :
    ∃ st', _add_tokens st toks special = .ok (r.length, st') ∧
      st'.added_tokens_encoder = st.added_tokens_encoder ++
        r.enum.map (fun p => (p.2, tokLen st + p.1)) ∧
      st'.vocab = st.vocab ∧ st'.vocab_size = st.vocab_size ∧
      st'.unk_token = st.unk_token ∧ st'.do_lower_case = st.do_lower_case := by
  simp only [_add_tokens, hr]
  exact ⟨_, rfl, rfl, rfl, rfl, rfl, rfl⟩

theorem map_pstr_collapse (toks : List String) :
    (toks.map PyObj.pstr).map (fun t => PyObj.pstr (pyStr t)) = toks.map PyObj.pstr := by
  simp only [List.map_map]
  rfl

theorem base_unk_id (st : Tok) (u : Nat)
    (hunk : _convert_token_to_id_with_added_voc st st.unk_token = some u)
    (hunk_ov : dictGet st.added_tokens_encoder st.unk_token = none)
    (hvunk : st.vocab.unk = some st.unk_token) :
    st.vocab.toIdx st.unk_token = some u := by
  simp only [_convert_token_to_id_with_added_voc, hunk_ov,
    _convert_token_to_id, Vocab.to_indices] at hunk
  cases h : st.vocab.toIdx st.unk_token with
  | none => rw [h, hvunk] at hunk; simp [h] at hunk
  | some i => rw [h] at hunk; simpa using hunk

/-- C2: `add_tokens(["foo","foo"])` then `add_tokens(["foo"])` on a
tokenizer where `"foo"` is unknown returns `1` then `0` and grows the
vocabulary by exactly 1; in general `_add_tokens` skips tokens equal to
the unknown token or already resolving to a non-unknown id, keeps the
remaining unique tokens, assigns them sequential overlay ids starting at
the current size, and returns the count actually added. -/
theorem add_tokens_dedup_c2 (st : Tok) (toks : List String) (special : Bool) (u : Nat)
    (hunk : _convert_token_to_id_with_added_voc st st.unk_token = some u)
    (hub : u < st.vocab_size)
    (hvunk : st.vocab.unk = some st.unk_token)
    (hunk_ov : dictGet st.added_tokens_encoder st.unk_token = none)
    (hfoo_base : st.vocab.toIdx "foo" = none)
    (hfoo_ov : dictGet st.added_tokens_encoder "foo" = none)
    (hfoo_unk : "foo" ≠ st.unk_token) :
    (∃ r st', addLoop st special [] (toks.map PyObj.pstr) = .ok r ∧ r.Nodup ∧
      (∀ t, t ∈ r ↔
        (t ∈ toks.map (fun s => if !special && st.do_lower_case then strLower s else s) ∧
         t ≠ st.unk_token ∧
         _convert_token_to_id_with_added_voc st t = some u)) ∧
      _add_tokens st (toks.map PyObj.pstr) special = .ok (r.length, st') ∧
      st'.added_tokens_encoder = st.added_tokens_encoder ++
        r.enum.map (fun p => (p.2, tokLen st + p.1)) ∧
      tokLen st' = tokLen st + r.length) ∧
    (∃ st1 st2,
      _add_tokens st [PyObj.pstr "foo", PyObj.pstr "foo"] false = .ok (1, st1) ∧
      _add_tokens st1 [PyObj.pstr "foo"] false = .ok (0, st2) ∧
      tokLen st2 = tokLen st + 1) := by
  have hbase := base_unk_id st u hunk hunk_ov hvunk
  have hconv_foo : _convert_token_to_id_with_added_voc st "foo" = some u := by
    simp only [_convert_token_to_id_with_added_voc, hfoo_ov,
      _convert_token_to_id, Vocab.to_indices, hfoo_base, hvunk]
    simp [hbase]
  constructor
  · obtain ⟨r, hr, hnd, hmem⟩ := addLoop_spec st special toks [] List.nodup_nil
    obtain ⟨st', hok, henc, -, hvs, -, -⟩ :=
      _add_tokens_ok_fields st (toks.map PyObj.pstr) special r
        (by rw [map_pstr_collapse]; exact hr)
    refine ⟨r, st', hr, hnd, fun t => ?_, hok, henc, ?_⟩
    · rw [hmem t, hunk]
      simp
    · simp only [tokLen, henc, List.length_append, List.length_map,
        List.enum_length, hvs]
      omega
  · have hlow : ∀ dlc : Bool, (if !false && dlc then strLower "foo" else "foo") = "foo" := by
      intro dlc
      have : strLower "foo" = "foo" := rfl
      rw [this]
      exact ite_self _
    have hr1 : addLoop st false [] [PyObj.pstr "foo", PyObj.pstr "foo"] = .ok ["foo"] := by
      simp only [addLoop, PyObj.isStr, if_true, pyStr_pstr, hlow]
      rw [if_pos ⟨hfoo_unk, by rw [hconv_foo, hunk], by simp⟩]
      rw [if_neg (by intro h; exact h.2.2 (by simp))]
      rfl
    obtain ⟨st1, hok1, henc1, hvoc1, hvs1, hut1, -⟩ :=
      _add_tokens_ok_fields st [PyObj.pstr "foo", PyObj.pstr "foo"] false ["foo"] hr1
    have hconv1_foo : _convert_token_to_id_with_added_voc st1 "foo" =
        some (tokLen st + 0) := by
      simp only [_convert_token_to_id_with_added_voc, henc1]
      rw [show (["foo"].enum.map (fun p => (p.2, tokLen st + p.1))) =
        [("foo", tokLen st + 0)] from rfl]
      rw [dictGet_append_last]
    have hconv1_unk : _convert_token_to_id_with_added_voc st1 st1.unk_token = some u := by
      simp only [_convert_token_to_id_with_added_voc, henc1, hut1]
      rw [show (["foo"].enum.map (fun p => (p.2, tokLen st + p.1))) =
        [("foo", tokLen st + 0)] from rfl]
      rw [dictGet_append_ne _ _ _ _ (Ne.symm hfoo_unk), hunk_ov]
      simp only [_convert_token_to_id, hvoc1, Vocab.to_indices, hbase]
    have hr2 : addLoop st1 false [] [PyObj.pstr "foo"] = .ok [] := by
      simp only [addLoop, PyObj.isStr, if_true, pyStr_pstr, hlow]
      rw [if_neg]
      intro h
      have h2 := h.2.1
      rw [hconv1_foo, hconv1_unk] at h2
      have : tokLen st + 0 = u := by simpa using h2
      have : st.vocab_size ≤ tokLen st := Nat.le_add_right _ _
      omega
    obtain ⟨st2, hok2, henc2, -, hvs2, -, -⟩ :=
      _add_tokens_ok_fields st1 [PyObj.pstr "foo"] false [] hr2
    refine ⟨st1, st2, hok1, hok2, ?_⟩
    have hlen2 : st2.added_tokens_encoder.length =
        st.added_tokens_encoder.length + 1 := by
      rw [henc2, henc1]
      simp
    rw [tokLen, tokLen, hvs2, hvs1, hlen2]
    omega

/-- Witness for C2 at the concrete example tokenizer. -/
theorem add_tokens_dedup_c2_witness :
    (_convert_token_to_id_with_added_voc exTok exTok.unk_token = some 0 ∧
     0 < exTok.vocab_size ∧
     exTok.vocab.unk = some exTok.unk_token ∧
     dictGet exTok.added_tokens_encoder exTok.unk_token = none ∧
     exTok.vocab.toIdx "foo" = none ∧
     dictGet exTok.added_tokens_encoder "foo" = none ∧
     "foo" ≠ exTok.unk_token) ∧
    ((∃ r st', addLoop exTok false [] (["foo", "bar"].map PyObj.pstr) = .ok r ∧
      r.Nodup ∧
      (∀ t, t ∈ r ↔
        (t ∈ ["foo", "bar"].map
            (fun s => if !false && exTok.do_lower_case then strLower s else s) ∧
         t ≠ exTok.unk_token ∧
         _convert_token_to_id_with_added_voc exTok t = some 0)) ∧
      _add_tokens exTok (["foo", "bar"].map PyObj.pstr) false = .ok (r.length, st') ∧
      st'.added_tokens_encoder = exTok.added_tokens_encoder ++
        r.enum.map (fun p => (p.2, tokLen exTok + p.1)) ∧
      tokLen st' = tokLen exTok + r.length) ∧
    (∃ st1 st2,
      _add_tokens exTok [PyObj.pstr "foo", PyObj.pstr "foo"] false = .ok (1, st1) ∧
      _add_tokens st1 [PyObj.pstr "foo"] false = .ok (0, st2) ∧
      tokLen st2 = tokLen exTok + 1)) :=
  ⟨⟨rfl, by decide, rfl, rfl, rfl, rfl, by decide⟩,
   add_tokens_dedup_c2 exTok ["foo", "bar"] false 0 rfl (by decide) rfl rfl rfl rfl
     (by decide)⟩

theorem pairwise_le_replicate (n i : Nat) :
    List.Pairwise (· ≤ ·) (List.replicate n i) := by
  induction n with
  | zero => simp
  | succ n ih =>
    rw [List.replicate_succ]
    exact List.Pairwise.cons (fun b hb => by rw [List.eq_of_mem_replicate hb]) ih

theorem charMapBuild_len (f : Char → List Char) :
    ∀ (t : List Char) (i : Nat),
      (charMapBuild f t i).2.length = (charMapBuild f t i).1.length := by
  intro t
  induction t with
  | nil => intro i; rfl
  | cons c cs ih => intro i; simp [charMapBuild, ih]

theorem charMapBuild_bounds (f : Char → List Char) :
    ∀ (t : List Char) (i : Nat), ∀ v ∈ (charMapBuild f t i).2,
      i ≤ v ∧ v < i + t.length := by
  intro t
  induction t with
  | nil => intro i v hv; simp [charMapBuild] at hv
  | cons c cs ih =>
    intro i v hv
    simp only [charMapBuild, List.mem_append] at hv
    simp only [List.length_cons]
    rcases hv with h | h
    · rw [List.eq_of_mem_replicate h]
      omega
    · have := ih (i + 1) v h
      omega

theorem charMapBuild_mono (f : Char → List Char) :
    ∀ (t : List Char) (i : Nat),
      List.Pairwise (· ≤ ·) (charMapBuild f t i).2 := by
  intro t
  induction t with
  | nil => intro i; exact List.Pairwise.nil
  | cons c cs ih =>
    intro i
    simp only [charMapBuild]
    rw [List.pairwise_append]
    refine ⟨pairwise_le_replicate _ _, ih (i + 1), fun a ha b hb => ?_⟩
    rw [List.eq_of_mem_replicate ha]
    have := (charMapBuild_bounds f cs (i + 1) b hb).1
    omega

theorem pairwise_le_get (cm : List Nat) (h : List.Pairwise (· ≤ ·) cm)
    (j k a b : Nat) (hjk : j ≤ k) (ha : cm[j]? = some a) (hb : cm[k]? = some b) :
    a ≤ b := by
  obtain ⟨hj, ha2⟩ := List.getElem?_eq_some.mp ha
  obtain ⟨hk, hb2⟩ := List.getElem?_eq_some.mp hb
  rcases Nat.lt_or_ge j k with hlt | hge
  · have := List.pairwise_iff_getElem.mp h j k hj hk hlt
    omega
  · have hjke : j = k := le_antisymm hjk hge
    subst hjke
    omega

theorem findSub_some (needle : List Char) :
    ∀ (hay : List Char) (r : Nat), findSub needle hay = some r →
      needle.isPrefixOf (hay.drop r) = true ∧ r + needle.length ≤ hay.length := by
  intro hay
  induction hay with
  | nil =>
    intro r h
    simp only [findSub] at h
    by_cases he : needle.isEmpty
    · rw [if_pos he] at h
      have hr : r = 0 := by
        simpa using h.symm
      subst hr
      have hne : needle = [] := by
        simpa [List.isEmpty_iff] using he
      subst hne
      exact ⟨rfl, by simp⟩
    · rw [if_neg he] at h
      cases h
  | cons c rest ih =>
    intro r h
    simp only [findSub] at h
    by_cases hp : needle.isPrefixOf (c :: rest) = true
    · rw [if_pos hp] at h
      have hr : r = 0 := by simpa using h.symm
      subst hr
      refine ⟨by simpa using hp, ?_⟩
      have := (List.isPrefixOf_iff_prefix.mp hp).length_le
      simpa using this
    · rw [if_neg hp] at h
      obtain ⟨r0, hr0, hr0e⟩ := Option.map_eq_some'.mp h
      obtain ⟨hpre, hlen⟩ := ih r0 hr0
      subst hr0e
      constructor
      · simpa [List.drop_succ_cons] using hpre
      · simp only [List.length_cons]
        omega

theorem isPrefixOf_take (l1 l2 : List Char) (h : l1.isPrefixOf l2 = true) :
    l2.take l1.length = l1 := by
  obtain ⟨t, ht⟩ := List.isPrefixOf_iff_prefix.mp h
  rw [← ht, List.take_left]

theorem locate_some (dl : Bool) (sp : List (List Char)) (nt : List Char)
    (tok : List Char) (offset : Nat) (se : Nat × Nat)
    (h : locate dl sp nt tok offset = some se) :
    ∃ r, se.1 = offset + r ∧ se.2 = se.1 + (effTok dl sp tok).length ∧
      r + (effTok dl sp tok).length ≤ nt.length - offset ∧
      ((nt.drop se.1).take (effTok dl sp tok).length).map sigmafy =
        (effTok dl sp tok).map sigmafy ∧
      (hasSigma (effTok dl sp tok) = false →
        (nt.drop se.1).take (effTok dl sp tok).length = effTok dl sp tok) := by
  simp only [locate] at h
  by_cases hsig : hasSigma (effTok dl sp tok) = true
  · rw [if_pos hsig] at h
    obtain ⟨r, hr, hre⟩ := Option.map_eq_some'.mp h
    obtain ⟨hpre, hlen⟩ := findSub_some _ _ r hr
    have hse1 : se.1 = offset + r := by rw [← hre]
    have hse2 : se.2 = se.1 + (effTok dl sp tok).length := by rw [← hre]
    refine ⟨r, hse1, hse2, ?_, ?_, ?_⟩
    · simpa using hlen
    · have hteq := isPrefixOf_take _ _ hpre
      rw [← List.map_drop, List.drop_drop, List.length_map, ← List.map_take] at hteq
      rw [hse1]
      exact hteq
    · intro habs
      rw [habs] at hsig
      cases hsig
  · rw [if_neg hsig] at h
    obtain ⟨r, hr, hre⟩ := Option.map_eq_some'.mp h
    obtain ⟨hpre, hlen⟩ := findSub_some _ _ r hr
    have hse1 : se.1 = offset + r := by rw [← hre]
    have hse2 : se.2 = se.1 + (effTok dl sp tok).length := by rw [← hre]
    have hteq := isPrefixOf_take _ _ hpre
    rw [List.drop_drop] at hteq
    refine ⟨r, hse1, hse2, ?_, ?_, fun _ => ?_⟩
    · simpa using hlen
    · rw [hse1]
      exact congrArg (List.map sigmafy) hteq
    · rw [hse1]
      exact hteq

theorem pyListGet_nat (cm : List Nat) (n : Nat) :
    pyListGet cm (n : Int) = cm[n]? := by
  rw [pyListGet, if_pos (by positivity), Int.toNat_natCast]

theorem pyListGet_sub_one (cm : List Nat) (n : Nat) (h : 1 ≤ n) :
    pyListGet cm ((n : Int) - 1) = cm[n - 1]? := by
  rw [pyListGet, if_pos (by omega)]
  rw [show ((n : Int) - 1).toNat = n - 1 by omega]

theorem offsetLoop_spec (dl : Bool) (sp : List (List Char)) (nt : List Char)
    (cm : List Nat) (L : Nat)
    (hlen : cm.length = nt.length)
    (hmono : List.Pairwise (· ≤ ·) cm)
    (hbound : ∀ v ∈ cm, v < L) :
    ∀ (toks : List (List Char)) (offset : Nat) (mapping : List (Nat × Nat)),
      offsetLoop dl sp nt cm toks offset = some mapping →
      (∀ tok ∈ toks, effTok dl sp tok ≠ []) →
      mapping.length = toks.length ∧
      (∀ p ∈ mapping, p.1 < p.2 ∧ p.2 ≤ L) ∧
      List.Chain' (fun a b => a.1 ≤ b.1) mapping ∧
      (∀ a, mapping.head? = some a →
        ∃ st v, offset ≤ st ∧ cm[st]? = some v ∧ a.1 = v) ∧
      (∀ k, k < toks.length → ∃ tok st, toks[k]? = some tok ∧ offset ≤ st ∧
        ((nt.drop st).take (effTok dl sp tok).length).map sigmafy =
          (effTok dl sp tok).map sigmafy ∧
        (hasSigma (effTok dl sp tok) = false →
          (nt.drop st).take (effTok dl sp tok).length = effTok dl sp tok) ∧
        ∃ s e1, cm[st]? = some s ∧
          cm[st + (effTok dl sp tok).length - 1]? = some e1 ∧
          mapping[k]? = some (s, e1 + 1)) := by
  intro toks
  induction toks with
  | nil =>
    intro offset mapping h _
    have hm : mapping = [] := by
      simpa [offsetLoop] using h.symm
    subst hm
    refine ⟨rfl, by simp, List.chain'_nil, by simp, by simp⟩
  | cons tok toks ih =>
    intro offset mapping h hne
    have htne : effTok dl sp tok ≠ [] := hne tok (by simp)
    have htlen : 1 ≤ (effTok dl sp tok).length := by
      cases hte : effTok dl sp tok with
      | nil => exact absurd hte htne
      | cons a l => simp
    simp only [offsetLoop] at h
    split at h
    · cases h
    next se hloc =>
      obtain ⟨r, hse1, hse2, hrlen, hmatch, hnosig⟩ :=
        locate_some dl sp nt tok offset se hloc
      have hse2le : se.2 ≤ nt.length := by omega
      split at h
      next s e1 hpg1 hpg2 =>
        rw [pyListGet_nat] at hpg1
        rw [pyListGet_sub_one cm se.2 (by omega)] at hpg2
        split at h
        · cases h
        next rest hrec =>
          have hm : mapping = (s, e1 + 1) :: rest := by
            simpa using h.symm
          subst hm
          obtain ⟨ihlen, ihspan, ihchain, ihhead, ihk⟩ :=
            ih se.2 rest hrec (fun x hx => hne x (by simp [hx]))
          have hsle : s ≤ e1 :=
            pairwise_le_get cm hmono se.1 (se.2 - 1) _ _ (by omega) hpg1 hpg2
          have he1b : e1 < L := by
            refine hbound e1 ?_
            obtain ⟨hh, hv⟩ := List.getElem?_eq_some.mp hpg2
            rw [← hv]
            exact List.getElem_mem ..
          refine ⟨by simp [ihlen], ?_, ?_, ?_, ?_⟩
          · intro p hp
            rcases List.mem_cons.mp hp with hp | hp
            · rw [hp]
              exact ⟨by omega, by omega⟩
            · exact ihspan p hp
          · rw [List.chain'_cons']
            refine ⟨fun y hy => ?_, ihchain⟩
            have hyh : rest.head? = some y := hy
            obtain ⟨st2, v2, hst2, hcm2, hy1⟩ := ihhead y hyh
            have hv2 : s ≤ v2 :=
              pairwise_le_get cm hmono se.1 st2 _ _ (by omega) hpg1 hcm2
            simp only []
            omega
          · intro a ha
            simp only [List.head?_cons, Option.some.injEq] at ha
            exact ⟨se.1, s, by omega, hpg1, by rw [← ha]⟩
          · intro k hk
            cases k with
            | zero =>
              refine ⟨tok, se.1, by simp, by omega, hmatch, hnosig,
                s, e1, hpg1, ?_, by simp⟩
              rw [show se.1 + (effTok dl sp tok).length - 1 = se.2 - 1 by omega]
              exact hpg2
            | succ k =>
              simp only [List.length_cons] at hk
              obtain ⟨tok2, st2, htk, hst2, hm1, hm2, s2, e2, hcs, hce, hmk⟩ :=
                ihk k (by omega)
              exact ⟨tok2, st2, by simpa using htk, by omega, hm1, hm2,
                s2, e2, hcs, hce, by simpa using hmk⟩
      next hno =>
        cases h

/-- C5: whenever `get_offset_mapping` succeeds (and the sub-tokenizer's
split tokens are non-empty after continuation-marker stripping), every
returned span `(s, e)` satisfies `0 ≤ s < e ≤ len(text)`, the spans'
start positions are non-decreasing across the sequence, and each token
was matched in the normalized working copy: the normalized content at
the match equals the stripped token (exactly when the token has no Greek
sigma, and up to the medial-sigma substitution otherwise), with the span
read off the original-character mapping at the match's end points. -/
theorem get_offset_mapping_c5 (normCh : Char → List Char) (dl : Bool)
    (sp : List (List Char)) (toks : List (List Char)) (text : List Char)
    (mapping : List (Nat × Nat))
    (hok : get_offset_mapping normCh dl sp toks text = some mapping)
    (hne : ∀ tok ∈ toks, effTok dl sp tok ≠ []) :
    mapping.length = toks.length ∧
    (∀ p ∈ mapping, p.1 < p.2 ∧ p.2 ≤ text.length) ∧
    List.Chain' (fun a b => a.1 ≤ b.1) mapping ∧
    (∀ k, k < toks.length → ∃ tok st, toks[k]? = some tok ∧
      (((charMapBuild normCh text 0).1.drop st).take
          (effTok dl sp tok).length).map sigmafy =
        (effTok dl sp tok).map sigmafy ∧
      (hasSigma (effTok dl sp tok) = false →
        ((charMapBuild normCh text 0).1.drop st).take
          (effTok dl sp tok).length = effTok dl sp tok) ∧
      ∃ s e1, (charMapBuild normCh text 0).2[st]? = some s ∧
        (charMapBuild normCh text 0).2[st + (effTok dl sp tok).length - 1]? =
          some e1 ∧
        mapping[k]? = some (s, e1 + 1)) := by
  simp only [get_offset_mapping] at hok
  obtain ⟨h1, h2, h3, -, h5⟩ :=
    offsetLoop_spec dl sp (charMapBuild normCh text 0).1
      (charMapBuild normCh text 0).2 text.length
      (charMapBuild_len normCh text 0)
      (charMapBuild_mono normCh text 0)
      (fun v hv => by
        have := (charMapBuild_bounds normCh text 0 v hv).2
        omega)
      toks 0 mapping hok hne
  refine ⟨h1, h2, h3, fun k hk => ?_⟩
  obtain ⟨tok, st, htk, -, hm1, hm2, s, e1, hcs, hce, hmk⟩ := h5 k hk
  exact ⟨tok, st, htk, hm1, hm2, s, e1, hcs, hce, hmk⟩

/-- Witness for C5: identity per-character normalization, no
lower-casing, tokens `["ab", "cd"]` over the text `"ab cd"`. -/
theorem get_offset_mapping_c5_witness :
    (get_offset_mapping (fun c => [c]) false []
        [['a', 'b'], ['c', 'd']] ['a', 'b', ' ', 'c', 'd'] =
      some [(0, 2), (3, 5)] ∧
     ∀ tok ∈ [['a', 'b'], ['c', 'd']], effTok false [] tok ≠ []) ∧
    ([(0, 2), (3, 5)] : List (Nat × Nat)).length =
        ([['a', 'b'], ['c', 'd']] : List (List Char)).length ∧
    (∀ p ∈ ([(0, 2), (3, 5)] : List (Nat × Nat)),
      p.1 < p.2 ∧ p.2 ≤ (['a', 'b', ' ', 'c', 'd'] : List Char).length) ∧
    List.Chain' (fun a b => a.1 ≤ b.1) ([(0, 2), (3, 5)] : List (Nat × Nat)) ∧
    (∀ k, k < ([['a', 'b'], ['c', 'd']] : List (List Char)).length →
      ∃ tok st, ([['a', 'b'], ['c', 'd']] : List (List Char))[k]? = some tok ∧
      (((charMapBuild (fun c => [c]) ['a', 'b', ' ', 'c', 'd'] 0).1.drop st).take
          (effTok false [] tok).length).map sigmafy =
        (effTok false [] tok).map sigmafy ∧
      (hasSigma (effTok false [] tok) = false →
        ((charMapBuild (fun c => [c]) ['a', 'b', ' ', 'c', 'd'] 0).1.drop st).take
          (effTok false [] tok).length = effTok false [] tok) ∧
      ∃ s e1, (charMapBuild (fun c => [c]) ['a', 'b', ' ', 'c', 'd'] 0).2[st]? =
          some s ∧
        (charMapBuild (fun c => [c]) ['a', 'b', ' ', 'c', 'd']
            0).2[st + (effTok false [] tok).length - 1]? = some e1 ∧
        ([(0, 2), (3, 5)] : List (Nat × Nat))[k]? = some (s, e1 + 1)) :=
  ⟨⟨by decide, by decide⟩,
   get_offset_mapping_c5 (fun c => [c]) false [] [['a', 'b'], ['c', 'd']]
     ['a', 'b', ' ', 'c', 'd'] [(0, 2), (3, 5)] (by decide) (by decide)⟩

end TokUtils
